import Mathlib

/-!
Verification development for the go-easyrsa PKI library.

This file gives a shallow embedding of the core logic of the library:
the hexadecimal serial encoding and parsing used on disk, the 64-bit
truncating view of big-integer serials used by the CRL de-duplication,
the directory-backed key storage (`Put`, `GetByCN`, `GetLastByCn`,
`GetBySerial`, `DeleteByCn`), the file-backed serial provider (`Next`),
and the PKI engine operations (`RevokeOne`, `IsRevoked`, certificate
template assembly for client and server roles).

Machine integers, I/O and crypto are embedded as follows: `math/big.Int`
is `Int`; byte slices are `List Nat`; file contents are `List Char`;
the filesystem under the key directory is a list of files plus a list of
directories (list order abstracts `filepath.Walk`'s traversal order);
outcomes of the non-logical effectful steps of `RevokeOne` (decoding the
CA pair, `CreateCRL` signing, `CRLHolder.Put`) are Boolean parameters,
since those steps do not affect the revoked-serial bookkeeping proved
here.
-/

set_option maxHeartbeats 1000000

/-! ### Hexadecimal encoding and parsing

`hexDigits`/`text16` model Go `big.Int.Text(16)` (lowercase hex, no
leading zeros, leading minus sign for negatives).  `parseInt64` models
`strconv.ParseInt(s, 16, 64)` (result must fit in a signed 64-bit
integer).  `parseBigHex` models `big.Int.SetString(s, 16)` (arbitrary
precision). -/

/-- Big-endian base-16 digit list of `n`; the first argument is fuel
(`n` itself suffices, since the value shrinks by a factor 16 each step). -/
def hexDigitsAux : Nat → Nat → List Nat
  | 0, _ => []
  | f + 1, n => if n = 0 then [] else hexDigitsAux f (n / 16) ++ [n % 16]

def hexDigits (n : Nat) : List Nat := hexDigitsAux n n

def digitsVal (ds : List Nat) : Nat := ds.foldl (fun a d => a * 16 + d) 0

/-- Lowercase hex digit character, as produced by `big.Int.Text(16)`. -/
def hexDigitChar (d : Nat) : Char := if d < 10 then Char.ofNat (48 + d) else Char.ofNat (87 + d)

/-- Value of a hex digit character; `0-9`, `a-f` and `A-F` are accepted,
as by both `strconv.ParseInt` and `big.Int.SetString`. -/
def hexCharVal (c : Char) : Option Nat :=
  if 48 ≤ c.toNat ∧ c.toNat ≤ 57 then some (c.toNat - 48)
  else if 97 ≤ c.toNat ∧ c.toNat ≤ 102 then some (c.toNat - 87)
  else if 65 ≤ c.toNat ∧ c.toNat ≤ 70 then some (c.toNat - 55)
  else none

/-- `big.Int.Text(16)` for a natural number. -/
def text16 (n : Nat) : List Char := if n = 0 then ['0'] else (hexDigits n).map hexDigitChar

/-- `big.Int.Text(16)`: lowercase hex, `-` prefix for negative values. -/
def intText16 (z : Int) : List Char :=
  if z < 0 then '-' :: text16 z.natAbs else text16 z.natAbs

def parseHexAux : List Char → Nat → Option Nat
  | [], acc => some acc
  | c :: rest, acc =>
    match hexCharVal c with
    | some d => parseHexAux rest (acc * 16 + d)
    | none => none

/-- Parse a non-empty string of hex digits to a natural number. -/
def parseHexNat : List Char → Option Nat
  | [] => none
  | c :: rest => parseHexAux (c :: rest) 0

/-- `strconv.ParseInt(s, 16, 64)`: optional sign, hex digits, and the
result must lie in the signed 64-bit range. -/
def parseInt64 : List Char → Option Int
  | [] => none
  | c :: rest =>
    if c = '-' then
      match parseHexNat rest with
      | some v => if v ≤ 2 ^ 63 then some (-(Int.ofNat v)) else none
      | none => none
    else if c = '+' then
      match parseHexNat rest with
      | some v => if v < 2 ^ 63 then some (Int.ofNat v) else none
      | none => none
    else
      match parseHexNat (c :: rest) with
      | some v => if v < 2 ^ 63 then some (Int.ofNat v) else none
      | none => none

/-- `big.Int.SetString(s, 16)`: optional sign, hex digits, arbitrary
precision. -/
def parseBigHex : List Char → Option Int
  | [] => none
  | c :: rest =>
    if c = '-' then (parseHexNat rest).map (fun v => -(Int.ofNat v))
    else if c = '+' then (parseHexNat rest).map (fun v => Int.ofNat v)
    else (parseHexNat (c :: rest)).map (fun v => Int.ofNat v)

/-! ### The 64-bit view of a big-integer serial

`big.Int.Int64()` returns `±int64(low 64 bits of |x|)`; this is the key
used by `removeDups` in `pki.go`. -/

/-- Two's-complement interpretation of the low 64 bits of a natural. -/
def toInt64Wrap (m : Nat) : Int :=
  if m % 2 ^ 64 < 2 ^ 63 then ((m % 2 ^ 64 : Nat) : Int)
  else ((m % 2 ^ 64 : Nat) : Int) - 2 ^ 64

/-- `big.Int.Int64()`. -/
def int64View (z : Int) : Int :=
  if z < 0 then -toInt64Wrap z.natAbs else toInt64Wrap z.natAbs

/-! ### CRL revoked-list maintenance (`pki.go`)

A CRL revoked entry is represented by its serial; the revocation time
carried alongside in `pkix.RevokedCertificate` plays no role in any of
the properties below. -/

/-- `removeDups` from `pki.go`: scan left to right, keep an entry iff the
`Int64()` view of its serial was not seen before (`encountered` is the
key set of the Go map). -/
def removeDupsAux (encountered : List Int) : List Int → List Int
  | [] => []
  | s :: rest =>
    if int64View s ∈ encountered then removeDupsAux encountered rest
    else s :: removeDupsAux (int64View s :: encountered) rest

def removeDups (list : List Int) : List Int := removeDupsAux [] list

/-- `RevokeOne`'s effect on the revoked-serial list of the stored CRL:
append the new serial, then de-duplicate. -/
def applyRevoke (crl : List Int) (serial : Int) : List Int := removeDups (crl ++ [serial])

/-- Revoked list after a sequence of `RevokeOne` calls starting from an
absent (empty) CRL. -/
def revokeSequence (serials : List Int) : List Int := serials.foldl applyRevoke []

/-- The membership loop of `PKI.IsRevoked`: true iff some revoked entry
has serial equal (by `big.Int.Cmp`) to the queried serial. -/
def isRevoked (revoked : List Int) (serial : Int) : Bool :=
  revoked.any (fun c => c == serial)

/-- `RevokeOne` and `IsRevoked` both start from the result of `GetCRL`
and fall back to an empty revoked list when it reports an error. -/
def crlList (r : Except String (List Int)) : List Int :=
  match r with
  | .ok l => l
  | .error _ => []

/-- `PKI.IsRevoked`: fetch the CRL, treat any error as an empty CRL,
then scan for the serial. -/
def pkiIsRevoked (crlRes : Except String (List Int)) (serial : Int) : Bool :=
  isRevoked (crlList crlRes) serial

instance {ε α : Type} [DecidableEq ε] [DecidableEq α] : DecidableEq (Except ε α) := fun x y =>
  match x, y with
  | .ok a, .ok b =>
    if h : a = b then isTrue (congrArg Except.ok h)
    else isFalse (fun hh => h (Except.ok.inj hh))
  | .error a, .error b =>
    if h : a = b then isTrue (congrArg Except.error h)
    else isFalse (fun hh => h (Except.error.inj hh))
  | .ok _, .error _ => isFalse (fun hh => Except.noConfusion hh)
  | .error _, .ok _ => isFalse (fun hh => Except.noConfusion hh)

/-! ### Directory-backed key storage (`fsStorage`) -/

/-- One file under the key directory: `keydir/<cn>/<base>.crt` when
`isCert`, else `keydir/<cn>/<base>.key`. -/
structure FsFile where
  cn : String
  base : List Char
  isCert : Bool
  content : List Nat
deriving DecidableEq

/-- The key directory: the set of `cn` subdirectories that exist, and the
files inside them.  List order abstracts `filepath.Walk` order. -/
structure DirKeyStorageState where
  dirs : List String
  files : List FsFile
deriving DecidableEq

/-- `pair.X509Pair`. -/
structure X509Pair where
  KeyPemBytes : List Nat
  CertPemBytes : List Nat
  CN : String
  Serial : Int
deriving DecidableEq

def sameEntry (g f : FsFile) : Bool :=
  g.cn == f.cn && g.base == f.base && g.isCert == f.isCert

/-- `ioutil.WriteFile`: truncate-and-rewrite an existing file, or create
a new one. -/
def writeFile (fs : List FsFile) (f : FsFile) : List FsFile :=
  if fs.any (fun g => sameEntry g f) then fs.map (fun g => if sameEntry g f then f else g)
  else fs ++ [f]

/-- `DirKeyStorage.Put`: `makePath` rejects an empty CN (a nil serial is
not representable here), creates `keydir/cn`, then writes
`<serial hex>.crt` and `<serial hex>.key`. -/
def put (st : DirKeyStorageState) (p : X509Pair) : Except String DirKeyStorageState :=
  if p.CN = "" then .error "empty cn or serial"
  else
    let base := intText16 p.Serial
    let dirs := if p.CN ∈ st.dirs then st.dirs else st.dirs ++ [p.CN]
    let fs1 := writeFile st.files ⟨p.CN, base, true, p.CertPemBytes⟩
    let fs2 := writeFile fs1 ⟨p.CN, base, false, p.KeyPemBytes⟩
    .ok ⟨dirs, fs2⟩

/-- Read `keydir/<cn>/<base>.key`. -/
def readKeySibling (fs : List FsFile) (cn : String) (base : List Char) : Option (List Nat) :=
  (fs.find? (fun g => g.cn == cn && g.base == base && g.isCert == false)).map
    (fun g => g.content)

/-- One step of `GetByCN`'s walk: for a `.crt` file under `keydir/cn`,
parse the base name as an int64 hex serial and read the `.key` sibling;
any failure skips the file. -/
def pairOfCert (fs : List FsFile) (cn : String) (f : FsFile) : Option X509Pair :=
  if f.cn == cn && f.isCert then
    match parseInt64 f.base with
    | none => none
    | some ser =>
      match readKeySibling fs cn f.base with
      | none => none
      | some keyBytes => some ⟨keyBytes, f.content, cn, ser⟩
  else none

/-- `DirKeyStorage.GetByCN`: collect all pairs under `keydir/cn`; an
empty result (including a missing directory) is a not-found error. -/
def getByCN (st : DirKeyStorageState) (cn : String) : Except String (List X509Pair) :=
  let res := st.files.filterMap (pairOfCert st.files cn)
  if res = [] then .error (cn ++ " not found") else .ok res

/-- Insert while keeping the list sorted by descending serial. -/
def insertBySerialDesc (p : X509Pair) : List X509Pair → List X509Pair
  | [] => [p]
  | q :: rest => if p.Serial ≤ q.Serial then q :: insertBySerialDesc p rest else p :: q :: rest

/-- `sort.Slice(pairs, Serial_i > Serial_j)` refined to insertion sort
(the Go sort is unspecified up to ties; only the head being a maximal
element is used below). -/
def sortBySerialDesc (l : List X509Pair) : List X509Pair := l.foldr insertBySerialDesc []

/-- `DirKeyStorage.GetLastByCn`: all pairs for the CN, sorted by
descending serial, first one. -/
def getLastByCn (st : DirKeyStorageState) (cn : String) : Except String X509Pair :=
  match getByCN st cn with
  | .error e => .error ("can`t get cert: " ++ e)
  | .ok pairs =>
    match sortBySerialDesc pairs with
    | [] => .error "can`t get cert"
    | p :: _ => .ok p

/-- One step of `GetBySerial`'s walk over every `.crt` file: parse the
base as an int64 hex serial, compare the hex text of both sides, and on
a match (with a readable `.key` sibling) replace the result, so a later
match wins. -/
def getBySerialStep (fs : List FsFile) (serial : Int) (acc : Option X509Pair) (f : FsFile) :
    Option X509Pair :=
  if f.isCert then
    match parseInt64 f.base with
    | none => acc
    | some ser =>
      if intText16 serial = intText16 ser then
        match readKeySibling fs f.cn f.base with
        | none => acc
        | some keyBytes => some ⟨keyBytes, f.content, f.cn, ser⟩
      else acc
  else acc

/-- `DirKeyStorage.GetBySerial`. -/
def getBySerial (st : DirKeyStorageState) (serial : Int) : Except String X509Pair :=
  match st.files.foldl (getBySerialStep st.files serial) none with
  | none => .error "not found"
  | some p => .ok p

/-- `DirKeyStorage.DeleteByCn`: `os.Remove(keydir/cn)`, which fails when
the directory is missing and also when it is non-empty (`os.Remove` is
not recursive). -/
def deleteByCn (st : DirKeyStorageState) (cn : String) : Except String DirKeyStorageState :=
  if cn ∈ st.dirs then
    if st.files.any (fun f => f.cn == cn) then
      .error "can`t delete by cn: directory not empty"
    else .ok ⟨st.dirs.erase cn, st.files⟩
  else .error "can`t delete by cn: no such file or directory"

/-! ### `PKI.RevokeOne` -/

inductive RevokeError where
  | getCa (msg : String)
  | decodeCa
  | createCrl
  | putCrl
deriving DecidableEq

/-- `PKI.RevokeOne` over the directory storage: read the current CRL
(errors fall back to an empty list), load and sort the CA pairs (an
error here aborts), then decode the newest CA, sign the de-duplicated
appended list, and store it.  `decodeOk`, `createOk` and `putOk` are the
outcomes of the decode, `CreateCRL` and `CRLHolder.Put` steps; `.ok l`
means `Put` was invoked with a CRL whose revoked list is `l`. -/
def revokeOne (st : DirKeyStorageState) (crlRes : Except String (List Int))
    (decodeOk createOk putOk : Bool) (serial : Int) : Except RevokeError (List Int) :=
  let list := crlList crlRes
  match getByCN st "ca" with
  | .error e => .error (.getCa e)
  | .ok caPairs =>
    match sortBySerialDesc caPairs with
    | [] => .error (.getCa "")
    | _ca :: _ =>
      if decodeOk then
        if createOk then
          if putOk then .ok (removeDups (list ++ [serial]))
          else .error .putCrl
        else .error .createCrl
      else .error .decodeCa

/-- The stored CRL artifact after `RevokeOne`: replaced on success, left
as it was on the error paths that return before `CRLHolder.Put` is
reached (every `RevokeError` except `putCrl`). -/
def crlAfterRevoke (stored : Option (List Int)) (result : Except RevokeError (List Int)) :
    Option (List Int) :=
  match result with
  | .ok l => some l
  | .error _ => stored

/-! ### File-backed serial provider (`FileSerialProvider.Next`) -/

/-- `Next`: read the counter file (missing is created empty; empty reads
as zero), add one, write the sum back in lowercase hex, return it.  On
unparsable content Go's `SetString` leaves the receiver unspecified; the
fallback 0 here is never relied upon by a theorem. -/
def nextSerial (content : List Char) : Int × List Char :=
  let res : Int := if content = [] then 0 else (parseBigHex content).getD 0
  let next := res + 1
  (next, intText16 next)

/-- Returned values of `k` consecutive `Next` calls against one counter
file starting from the given content. -/
def runNext : List Char → Nat → List Int
  | _, 0 => []
  | content, k + 1 =>
    let r := nextSerial content
    r.1 :: runNext r.2 k

/-! ### Certificate template assembly (`PKI.NewCert` and the role
options) -/

def KeyUsageDigitalSignature : Nat := 1
def KeyUsageKeyEncipherment : Nat := 4
def KeyUsageKeyAgreement : Nat := 16
def KeyUsageCertSign : Nat := 32
def KeyUsageCRLSign : Nat := 64
def ExtKeyUsageServerAuth : Nat := 1
def ExtKeyUsageClientAuth : Nat := 2

/-- `asn1.BitString`: the value placed in the Netscape Cert Type
extension before ASN.1 encoding. -/
structure BitString where
  Bytes : List Nat
  BitLength : Nat
deriving DecidableEq

/-- `pkix.Extension` restricted to the bit-string payload used here. -/
structure NsExtension where
  Id : List Nat
  Value : BitString
deriving DecidableEq

def nsCertTypeOid : List Nat := [2, 16, 840, 1, 113730, 1, 1]

/-- The role-relevant fields of `x509.Certificate` templates. -/
structure CertTemplate where
  SerialNumber : Int
  CommonName : String
  IsCA : Bool
  KeyUsage : Nat
  ExtKeyUsage : List Nat
  ExtraExtensions : List NsExtension
deriving DecidableEq

/-- `PKI.NewCert(cn, server)` template assembly from `pki.go`: built as a
client certificate, then the key-usage fields and the single extension
value are replaced for the server role. -/
def newCertTemplate (cn : String) (serial : Int) (server : Bool) : CertTemplate :=
  let tml : CertTemplate :=
    { SerialNumber := serial
      CommonName := cn
      IsCA := false
      KeyUsage := KeyUsageDigitalSignature ||| KeyUsageKeyAgreement
      ExtKeyUsage := [ExtKeyUsageClientAuth]
      ExtraExtensions := [⟨nsCertTypeOid, ⟨[0x80], 2⟩⟩] }
  if server then
    { tml with
      KeyUsage := KeyUsageDigitalSignature ||| KeyUsageKeyAgreement ||| KeyUsageKeyEncipherment
      ExtKeyUsage := [ExtKeyUsageServerAuth]
      ExtraExtensions := [⟨nsCertTypeOid, ⟨[0x40], 2⟩⟩] }
  else tml

/-- The template built by `createCert` in the functional-options variant,
before any option runs: role fields hold Go zero values. -/
def baseCertTemplate (cn : String) (serial : Int) : CertTemplate :=
  { SerialNumber := serial
    CommonName := cn
    IsCA := false
    KeyUsage := 0
    ExtKeyUsage := []
    ExtraExtensions := [] }

/-- The `Client()` certificate option. -/
def applyClientOption (c : CertTemplate) : CertTemplate :=
  { c with
    KeyUsage := KeyUsageDigitalSignature ||| KeyUsageKeyAgreement
    ExtKeyUsage := [ExtKeyUsageClientAuth]
    ExtraExtensions := [⟨nsCertTypeOid, ⟨[0x80], 2⟩⟩] }

/-- The `Server()` certificate option: appends the extension to those
already present. -/
def applyServerOption (c : CertTemplate) : CertTemplate :=
  { c with
    KeyUsage := KeyUsageDigitalSignature ||| KeyUsageKeyAgreement ||| KeyUsageKeyEncipherment
    ExtKeyUsage := [ExtKeyUsageServerAuth]
    ExtraExtensions := c.ExtraExtensions ++ [⟨nsCertTypeOid, ⟨[0x40], 2⟩⟩] }

/-! ### Concrete states used by counterexamples and witnesses -/

/-- A key directory holding one CA pair with serial 1. -/
def exampleCaState : DirKeyStorageState :=
  ⟨["ca"], [⟨"ca", ['1'], true, [2]⟩, ⟨"ca", ['1'], false, [1]⟩]⟩

def caPairBig : X509Pair := ⟨[3], [4], "ca", 9223372036854775808⟩

/-- `exampleCaState` after `put caPairBig`: a second CA pair whose serial
is `2 ^ 63`. -/
def bigCaState : DirKeyStorageState :=
  ⟨["ca"],
    [⟨"ca", ['1'], true, [2]⟩, ⟨"ca", ['1'], false, [1]⟩,
      ⟨"ca", intText16 9223372036854775808, true, [4]⟩,
      ⟨"ca", intText16 9223372036854775808, false, [3]⟩]⟩

def bigPair : X509Pair := ⟨[1], [2], "big", 9223372036854775808⟩

/-- The empty key directory after `put bigPair`. -/
def bigPairState : DirKeyStorageState :=
  ⟨["big"],
    [⟨"big", intText16 9223372036854775808, true, [2]⟩,
      ⟨"big", intText16 9223372036854775808, false, [1]⟩]⟩

/-! ## Theorems -/

/-! ### Hex round trips -/

theorem hexDigitsAux_zero (f : Nat) : hexDigitsAux f 0 = [] := by
  cases f <;> simp [hexDigitsAux]

theorem digitsVal_append (ds : List Nat) (d : Nat) :
    digitsVal (ds ++ [d]) = digitsVal ds * 16 + d := by
  simp [digitsVal, List.foldl_append]

theorem digitsVal_hexDigitsAux (f : Nat) :
    ∀ n, n ≤ f → digitsVal (hexDigitsAux f n) = n := by
  induction f with
  | zero =>
    intro n hn
    interval_cases n
    simp [hexDigitsAux, digitsVal]
  | succ f ih =>
    intro n hn
    by_cases h0 : n = 0
    · simp [h0, hexDigitsAux, digitsVal]
    · have hdiv : n / 16 ≤ f := by
        have := Nat.div_lt_self (Nat.pos_of_ne_zero h0) (by norm_num : 1 < 16)
        omega
      simp only [hexDigitsAux, h0, if_false, digitsVal_append, ih (n / 16) hdiv]
      omega

theorem digitsVal_hexDigits (n : Nat) : digitsVal (hexDigits n) = n :=
  digitsVal_hexDigitsAux n n (Nat.le_refl n)

theorem hexDigitsAux_lt (f : Nat) :
    ∀ n d, d ∈ hexDigitsAux f n → d < 16 := by
  induction f with
  | zero => intro n d hd; simp [hexDigitsAux] at hd
  | succ f ih =>
    intro n d hd
    by_cases h0 : n = 0
    · simp [h0, hexDigitsAux] at hd
    · simp only [hexDigitsAux, h0, if_false, List.mem_append, List.mem_singleton] at hd
      rcases hd with hd | hd
      · exact ih (n / 16) d hd
      · omega

theorem hexCharVal_hexDigitChar (d : Nat) (h : d < 16) :
    hexCharVal (hexDigitChar d) = some d := by
  interval_cases d <;> decide

theorem hexDigitChar_ne_minus (d : Nat) (h : d < 16) : hexDigitChar d ≠ '-' := by
  interval_cases d <;> decide

theorem hexDigitChar_ne_plus (d : Nat) (h : d < 16) : hexDigitChar d ≠ '+' := by
  interval_cases d <;> decide

theorem parseHexAux_map (ds : List Nat) (h : ∀ d ∈ ds, d < 16) :
    ∀ acc, parseHexAux (ds.map hexDigitChar) acc =
      some (ds.foldl (fun a d => a * 16 + d) acc) := by
  induction ds with
  | nil => intro acc; simp [parseHexAux]
  | cons d ds ih =>
    intro acc
    have hd : d < 16 := h d (List.mem_cons_self d ds)
    simp only [List.map_cons, parseHexAux, hexCharVal_hexDigitChar d hd, List.foldl_cons]
    exact ih (fun x hx => h x (List.mem_cons_of_mem d hx)) (acc * 16 + d)

theorem hexDigits_ne_nil (n : Nat) (h : n ≠ 0) : hexDigits n ≠ [] := by
  intro hh
  have := digitsVal_hexDigits n
  rw [hh] at this
  simp [digitsVal] at this
  omega

/-- For every `n`, `text16 n` is non-empty, starts with a character that
is not a sign, and parses back to `n`. -/
theorem text16_spec (n : Nat) :
    ∃ c cs, text16 n = c :: cs ∧ c ≠ '-' ∧ c ≠ '+' ∧ parseHexNat (c :: cs) = some n := by
  by_cases h0 : n = 0
  · subst h0
    exact ⟨'0', [], by simp [text16], by decide, by decide, by decide⟩
  · obtain ⟨d, ds, hds⟩ := List.exists_cons_of_ne_nil (hexDigits_ne_nil n h0)
    have hdlt : ∀ x ∈ hexDigits n, x < 16 := fun x hx => hexDigitsAux_lt n n x hx
    have hd16 : d < 16 := hdlt d (by rw [hds]; exact List.mem_cons_self d ds)
    refine ⟨hexDigitChar d, ds.map hexDigitChar, ?_, hexDigitChar_ne_minus d hd16,
      hexDigitChar_ne_plus d hd16, ?_⟩
    · simp [text16, h0, hds]
    · have : parseHexAux ((d :: ds).map hexDigitChar) 0 =
          some ((d :: ds).foldl (fun a x => a * 16 + x) 0) := by
        apply parseHexAux_map
        intro x hx
        exact hdlt x (hds ▸ hx)
      simp only [List.map_cons] at this
      rw [parseHexNat, this]
      have hval : digitsVal (hexDigits n) = n := digitsVal_hexDigits n
      rw [hds] at hval
      simpa [digitsVal] using hval

theorem parseBigHex_intText16 (z : Int) : parseBigHex (intText16 z) = some z := by
  by_cases hz : z < 0
  · obtain ⟨c, cs, hcons, _, _, hparse⟩ := text16_spec z.natAbs
    simp only [intText16, hz, if_true, hcons, parseBigHex, if_pos rfl, hparse, Option.map_some',
      Option.some.injEq, Int.ofNat_eq_coe]
    omega
  · obtain ⟨c, cs, hcons, hm, hp, hparse⟩ := text16_spec z.natAbs
    simp only [intText16, hz, if_false, hcons, parseBigHex, hm, if_false, hp, hparse,
      Option.map_some', Option.some.injEq, Int.ofNat_eq_coe]
    omega

theorem parseInt64_intText16 (z : Int) (h1 : 0 < z) (h2 : z < 2 ^ 63) :
    parseInt64 (intText16 z) = some z := by
  obtain ⟨c, cs, hcons, hm, hp, hparse⟩ := text16_spec z.natAbs
  have hz : ¬ z < 0 := by omega
  simp only [intText16, hz, if_false, hcons, parseInt64, hm, if_false, hp, hparse]
  have hlt : z.natAbs < 2 ^ 63 := by omega
  simp only [hlt, if_true, Option.some.injEq, Int.ofNat_eq_coe]
  omega

/-! ### `removeDups` -/

theorem removeDupsAux_sublist (l : List Int) :
    ∀ seen, (removeDupsAux seen l).Sublist l := by
  induction l with
  | nil => intro seen; simp [removeDupsAux]
  | cons s rest ih =>
    intro seen
    by_cases h : int64View s ∈ seen
    · simp only [removeDupsAux, h, if_true]
      exact (ih seen).cons s
    · simp only [removeDupsAux, h, if_false]
      exact (ih (int64View s :: seen)).cons₂ s

theorem mem_removeDupsAux_not_seen (l : List Int) :
    ∀ seen x, x ∈ removeDupsAux seen l → int64View x ∉ seen := by
  induction l with
  | nil => intro seen x hx; simp [removeDupsAux] at hx
  | cons s rest ih =>
    intro seen x hx
    by_cases h : int64View s ∈ seen
    · simp only [removeDupsAux, h, if_true] at hx
      exact ih seen x hx
    · simp only [removeDupsAux, h, if_false, List.mem_cons] at hx
      rcases hx with rfl | hx
      · exact h
      · have := ih (int64View s :: seen) x hx
        exact fun hmem => this (List.mem_cons_of_mem _ hmem)

theorem removeDupsAux_pairwise (l : List Int) :
    ∀ seen, (removeDupsAux seen l).Pairwise (fun a b => int64View a ≠ int64View b) := by
  induction l with
  | nil => intro seen; simp [removeDupsAux]
  | cons s rest ih =>
    intro seen
    by_cases h : int64View s ∈ seen
    · simp only [removeDupsAux, h, if_true]
      exact ih seen
    · simp only [removeDupsAux, h, if_false]
      refine List.Pairwise.cons ?_ (ih (int64View s :: seen))
      intro b hb heq
      have := mem_removeDupsAux_not_seen rest (int64View s :: seen) b hb
      exact this (heq ▸ List.mem_cons_self _ _)

theorem removeDupsAux_append_self (l : List Int) :
    ∀ seen s, removeDupsAux seen (removeDupsAux seen l ++ [s]) =
      removeDupsAux seen (l ++ [s]) := by
  induction l with
  | nil => intro seen s; simp [removeDupsAux]
  | cons c rest ih =>
    intro seen s
    by_cases h : int64View c ∈ seen
    · simp only [removeDupsAux, h, if_true]
      exact ih seen s
    · simp only [removeDupsAux, h, if_false, List.cons_append, if_false]
      rw [ih (int64View c :: seen) s]
      rfl

theorem revokeSequence_eq_removeDups (serials : List Int) :
    revokeSequence serials = removeDups serials := by
  induction serials using List.reverseRecOn with
  | nil => simp [revokeSequence, removeDups, removeDupsAux]
  | append_singleton l s ih =>
    have hfold : revokeSequence (l ++ [s]) = applyRevoke (revokeSequence l) s := by
      simp [revokeSequence, List.foldl_append]
    rw [hfold, ih, applyRevoke, removeDups, removeDups,
      removeDupsAux_append_self l [] s]
    rfl

theorem mem_removeDupsAux_first (l₁ : List Int) (s : Int) (l₂ : List Int) :
    ∀ seen, int64View s ∉ seen → (∀ t ∈ l₁, int64View t ≠ int64View s) →
      s ∈ removeDupsAux seen (l₁ ++ s :: l₂) := by
  induction l₁ with
  | nil =>
    intro seen hs _
    simp only [List.nil_append, removeDupsAux, hs, if_false]
    exact List.mem_cons_self _ _
  | cons t rest ih =>
    intro seen hs hall
    have hts : int64View t ≠ int64View s := hall t (List.mem_cons_self t rest)
    by_cases h : int64View t ∈ seen
    · simp only [List.cons_append, removeDupsAux, h, if_true]
      exact ih seen hs (fun u hu => hall u (List.mem_cons_of_mem t hu))
    · simp only [List.cons_append, removeDupsAux, h, if_false]
      refine List.mem_cons_of_mem t ?_
      refine ih (int64View t :: seen) ?_ (fun u hu => hall u (List.mem_cons_of_mem t hu))
      simp only [List.mem_cons]
      push_neg
      exact ⟨fun hh => hts hh.symm, hs⟩

theorem mem_removeDupsAux_self (l : List Int) :
    ∀ seen s, int64View s ∉ seen → (∀ t ∈ l, int64View t = int64View s → t = s) →
      s ∈ removeDupsAux seen (l ++ [s]) := by
  induction l with
  | nil =>
    intro seen s hs _
    simp only [List.nil_append, removeDupsAux, hs, if_false]
    exact List.mem_cons_self _ _
  | cons t rest ih =>
    intro seen s hs hall
    by_cases h : int64View t ∈ seen
    · simp only [List.cons_append, removeDupsAux, h, if_true]
      exact ih seen s hs (fun u hu => hall u (List.mem_cons_of_mem t hu))
    · simp only [List.cons_append, removeDupsAux, h, if_false]
      by_cases hts : int64View t = int64View s
      · have : t = s := hall t (List.mem_cons_self t rest) hts
        subst this
        exact List.mem_cons_self _ _
      · refine List.mem_cons_of_mem t ?_
        refine ih (int64View t :: seen) s ?_ (fun u hu => hall u (List.mem_cons_of_mem t hu))
        simp only [List.mem_cons]
        push_neg
        exact ⟨fun hh => hts hh.symm, hs⟩

theorem isRevoked_eq_true_iff (l : List Int) (s : Int) : isRevoked l s = true ↔ s ∈ l := by
  simp only [isRevoked, List.any_eq_true, beq_iff_eq]
  constructor
  · rintro ⟨c, hc, rfl⟩; exact hc
  · intro h; exact ⟨s, h, rfl⟩

/-! ### Sorting by descending serial -/

theorem mem_insertBySerialDesc (p : X509Pair) (l : List X509Pair) (x : X509Pair) :
    x ∈ insertBySerialDesc p l ↔ x = p ∨ x ∈ l := by
  induction l with
  | nil => simp [insertBySerialDesc]
  | cons q rest ih =>
    by_cases h : p.Serial ≤ q.Serial
    · simp only [insertBySerialDesc, h, if_true, List.mem_cons, ih]
      tauto
    · simp only [insertBySerialDesc, h, if_false, List.mem_cons]

theorem mem_sortBySerialDesc (l : List X509Pair) (x : X509Pair) :
    x ∈ sortBySerialDesc l ↔ x ∈ l := by
  induction l with
  | nil => simp [sortBySerialDesc]
  | cons q rest ih =>
    have : sortBySerialDesc (q :: rest) = insertBySerialDesc q (sortBySerialDesc rest) := rfl
    rw [this, mem_insertBySerialDesc, ih, List.mem_cons]

theorem pairwise_insertBySerialDesc (p : X509Pair) (l : List X509Pair)
    (h : l.Pairwise (fun a b => b.Serial ≤ a.Serial)) :
    (insertBySerialDesc p l).Pairwise (fun a b => b.Serial ≤ a.Serial) := by
  induction l with
  | nil => simp [insertBySerialDesc]
  | cons q rest ih =>
    rcases List.pairwise_cons.mp h with ⟨hq, hrest⟩
    by_cases hle : p.Serial ≤ q.Serial
    · simp only [insertBySerialDesc, hle, if_true]
      refine List.pairwise_cons.mpr ⟨?_, ih hrest⟩
      intro b hb
      rcases (mem_insertBySerialDesc p rest b).mp hb with rfl | hb
      · exact hle
      · exact hq b hb
    · simp only [insertBySerialDesc, hle, if_false]
      refine List.pairwise_cons.mpr ⟨?_, h⟩
      intro b hb
      rcases List.mem_cons.mp hb with rfl | hb
      · omega
      · have := hq b hb
        omega

theorem pairwise_sortBySerialDesc (l : List X509Pair) :
    (sortBySerialDesc l).Pairwise (fun a b => b.Serial ≤ a.Serial) := by
  induction l with
  | nil => simp [sortBySerialDesc]
  | cons q rest ih => exact pairwise_insertBySerialDesc q (sortBySerialDesc rest) ih

theorem insertBySerialDesc_ne_nil (p : X509Pair) (l : List X509Pair) :
    insertBySerialDesc p l ≠ [] := by
  cases l with
  | nil => simp [insertBySerialDesc]
  | cons q rest =>
    by_cases h : p.Serial ≤ q.Serial <;> simp [insertBySerialDesc, h]

/-- The head of the descending sort is a maximal element. -/
theorem sortBySerialDesc_head_max (l : List X509Pair) (q : X509Pair) (rest : List X509Pair)
    (h : sortBySerialDesc l = q :: rest) :
    q ∈ l ∧ ∀ r ∈ l, r.Serial ≤ q.Serial := by
  constructor
  · rw [← mem_sortBySerialDesc, h]
    exact List.mem_cons_self _ _
  · intro r hr
    rw [← mem_sortBySerialDesc, h, List.mem_cons] at hr
    rcases hr with rfl | hr
    · omega
    · have hp := pairwise_sortBySerialDesc l
      rw [h] at hp
      exact (List.pairwise_cons.mp hp).1 r hr

/-! ### `getByCN` and `revokeOne` structure -/

theorem getByCN_ok_ne_nil (st : DirKeyStorageState) (cn : String) (pairs : List X509Pair)
    (h : getByCN st cn = .ok pairs) :
    pairs = st.files.filterMap (pairOfCert st.files cn) ∧ pairs ≠ [] := by
  by_cases hnil : st.files.filterMap (pairOfCert st.files cn) = []
  · simp [getByCN, hnil] at h
  · simp only [getByCN, hnil, if_false] at h
    exact ⟨(Except.ok.inj h).symm, (Except.ok.inj h) ▸ hnil⟩

theorem getByCN_no_ca (st : DirKeyStorageState) (cn : String)
    (h : ∀ f ∈ st.files, f.cn ≠ cn) :
    getByCN st cn = .error (cn ++ " not found") := by
  have : st.files.filterMap (pairOfCert st.files cn) = [] := by
    rw [List.filterMap_eq_nil_iff]
    intro f hf
    have : (f.cn == cn) = false := beq_eq_false_iff_ne.mpr (h f hf)
    simp [pairOfCert, this]
  simp [getByCN, this]

/-- On a storage whose `GetByCN "ca"` succeeds and whose decode, sign and
store steps succeed, `RevokeOne` stores the de-duplicated appended
revoked list. -/
theorem revokeOne_ok (st : DirKeyStorageState) (crlRes : Except String (List Int))
    (serial : Int) (pairs : List X509Pair) (h : getByCN st "ca" = .ok pairs) :
    revokeOne st crlRes true true true serial =
      .ok (applyRevoke (crlList crlRes) serial) := by
  obtain ⟨_, hne⟩ := getByCN_ok_ne_nil st "ca" pairs h
  obtain ⟨q, rest, hsort⟩ : ∃ q rest, sortBySerialDesc pairs = q :: rest := by
    cases hs : sortBySerialDesc pairs with
    | nil =>
      exfalso
      cases pairs with
      | nil => exact hne rfl
      | cons a l => exact insertBySerialDesc_ne_nil a (sortBySerialDesc l) hs
    | cons q rest => exact ⟨q, rest, rfl⟩
  simp [revokeOne, h, hsort, applyRevoke]

/-! ### `writeFile` and lookup helpers -/

theorem find?_map_overwrite {α : Type} (p : α → Bool) (k : α) (l : List α)
    (hk : p k = true) (h : l.any p = true) :
    (l.map (fun g => if p g then k else g)).find? p = some k := by
  induction l with
  | nil => simp at h
  | cons a l ih =>
    by_cases ha : p a = true
    · rw [List.map_cons, if_pos ha]
      exact List.find?_cons_of_pos _ hk
    · have ha' : p a = false := by simpa using ha
      simp only [List.any_cons, ha', Bool.false_or] at h
      rw [List.map_cons, if_neg ha, List.find?_cons_of_neg _ ha, ih h]

theorem find?_append_last {α : Type} (p : α → Bool) (k : α) (l : List α)
    (hk : p k = true) (h : l.any p = false) :
    (l ++ [k]).find? p = some k := by
  induction l with
  | nil => simp [List.find?, hk]
  | cons a l ih =>
    simp only [List.any_cons, Bool.or_eq_false_iff] at h
    have ha : ¬ p a = true := by simp [h.1]
    rw [List.cons_append, List.find?_cons_of_neg _ ha, ih h.2]

theorem readKeySibling_writeFile (fs : List FsFile) (cn : String) (base : List Char)
    (bytes : List Nat) :
    readKeySibling (writeFile fs ⟨cn, base, false, bytes⟩) cn base = some bytes := by
  have hpred : (fun g : FsFile => g.cn == cn && g.base == base && g.isCert == false) =
      (fun g => sameEntry g ⟨cn, base, false, bytes⟩) := by
    funext g
    simp [sameEntry]
  unfold readKeySibling writeFile
  rw [hpred]
  by_cases h : fs.any (fun g => sameEntry g ⟨cn, base, false, bytes⟩)
  · rw [if_pos h, find?_map_overwrite _ _ _ (by simp [sameEntry]) h]
    rfl
  · rw [if_neg h, find?_append_last _ _ _ (by simp [sameEntry]) (by simpa using h)]
    rfl

theorem mem_writeFile_self (fs : List FsFile) (f : FsFile) : f ∈ writeFile fs f := by
  unfold writeFile
  by_cases h : fs.any (fun g => sameEntry g f)
  · rw [if_pos h]
    obtain ⟨g, hg, hsame⟩ := List.any_eq_true.mp h
    exact List.mem_map.mpr ⟨g, hg, by simp [hsame]⟩
  · rw [if_neg h]
    simp

theorem mem_writeFile_of_mem (fs : List FsFile) (f g : FsFile) (hg : g ∈ fs)
    (hne : sameEntry g f = false) : g ∈ writeFile fs f := by
  unfold writeFile
  by_cases h : fs.any (fun g => sameEntry g f)
  · rw [if_pos h]
    exact List.mem_map.mpr ⟨g, hg, by simp [hne]⟩
  · rw [if_neg h]
    exact List.mem_append_left _ hg

/-- A file skipped by `GetBySerial`'s walk leaves the accumulator alone:
either it is not a certificate, or its parsed serial has different hex
text. -/
theorem getBySerialStep_skip (fs : List FsFile) (serial : Int) (f : FsFile)
    (hskip : f.isCert = false ∨
      ∀ ser, parseInt64 f.base = some ser → intText16 serial ≠ intText16 ser) :
    ∀ acc, getBySerialStep fs serial acc f = acc := by
  intro acc
  rcases hskip with h | h
  · simp [getBySerialStep, h]
  · unfold getBySerialStep
    cases hc : f.isCert
    · rfl
    · simp only [if_true]
      cases hp : parseInt64 f.base with
      | none => rfl
      | some ser => simp [h ser hp]

theorem foldl_getBySerialStep_skip (fs : List FsFile) (serial : Int) (l : List FsFile)
    (h : ∀ f ∈ l, ∀ acc, getBySerialStep fs serial acc f = acc) :
    ∀ acc, l.foldl (getBySerialStep fs serial) acc = acc := by
  induction l with
  | nil => intro acc; rfl
  | cons f l ih =>
    intro acc
    rw [List.foldl_cons, h f (List.mem_cons_self f l) acc]
    exact ih (fun g hg => h g (List.mem_cons_of_mem f hg)) acc

/-! ### Serial provider helpers -/

theorem text16_ne_nil (n : Nat) : text16 n ≠ [] := by
  by_cases h0 : n = 0
  · simp [text16, h0]
  · simp only [text16, h0, if_false, ne_eq, List.map_eq_nil_iff]
    exact hexDigits_ne_nil n h0

theorem intText16_ne_nil (z : Int) : intText16 z ≠ [] := by
  unfold intText16
  by_cases hz : z < 0
  · simp [hz]
  · simp only [hz, if_false]
    exact text16_ne_nil z.natAbs

theorem nextSerial_intText16 (v : Int) :
    nextSerial (intText16 v) = (v + 1, intText16 (v + 1)) := by
  simp [nextSerial, intText16_ne_nil v, parseBigHex_intText16 v]

theorem runNext_intText16 (k : Nat) :
    ∀ v : Int, runNext (intText16 v) k = (List.range k).map (fun i : Nat => v + 1 + (i : Int)) := by
  induction k with
  | zero => intro v; simp [runNext]
  | succ k ih =>
    intro v
    rw [runNext, nextSerial_intText16 v, ih (v + 1), List.range_succ_eq_map]
    simp only [List.map_cons, List.map_map, Nat.cast_zero, add_zero]
    congr 1
    apply List.map_congr_left
    intro i _
    simp only [Function.comp_apply, Nat.cast_succ]
    ring

theorem runNext_nil_eq (k : Nat) : runNext [] k = runNext (intText16 0) k := by
  cases k with
  | zero => rfl
  | succ k =>
    have h1 : nextSerial [] = (1, intText16 1) := by norm_num [nextSerial]
    have h2 : nextSerial (intText16 0) = (1, intText16 1) := by
      rw [nextSerial_intText16 0]; norm_num
    rw [runNext, runNext, h1, h2]

theorem chain_lt_map_range (v : Int) (k : Nat) :
    (((List.range k).map (fun i : Nat => v + 1 + (i : Int))).Chain' (· < ·)) := by
  apply List.Pairwise.chain'
  refine List.pairwise_map.mpr ?_
  refine List.Pairwise.imp ?_ (List.pairwise_lt_range k)
  intro a b hab
  omega

theorem isRevoked_eq_false_iff (l : List Int) (s : Int) : isRevoked l s = false ↔ s ∉ l := by
  rw [← isRevoked_eq_true_iff]
  cases isRevoked l s <;> simp

theorem sortBySerialDesc_exists_cons (l : List X509Pair) (h : l ≠ []) :
    ∃ q rest, sortBySerialDesc l = q :: rest := by
  cases hs : sortBySerialDesc l with
  | nil =>
    exfalso
    cases l with
    | nil => exact h rfl
    | cons a t => exact insertBySerialDesc_ne_nil a (sortBySerialDesc t) hs
  | cons q rest => exact ⟨q, rest, rfl⟩

/-- Claim C1 (amended).  For any sequence of `revoke_one` calls against
one PKI, the revoked list of the resulting CRL: (i) has pairwise distinct
`Int64()` views of its serials, hence (ii) contains each serial at most
once; (iii) it preserves first-revocation order (it is a sublist of the
call sequence); (iv) a revoked serial is present provided its 64-bit view
differs from every earlier revoked serial's view (not every distinct
big-integer serial is present: the de-duplication keys by the truncated
64-bit view, see the counterexample); (v) the no-duplicates invariant is
(re)established by every `revoke_one` call; and (vi) a successful
`RevokeOne` stores exactly `applyRevoke` of the previous list. -/
theorem crl_dedup_amended (serials : List Int) :
    (revokeSequence serials).Pairwise (fun a b => int64View a ≠ int64View b)
    ∧ (revokeSequence serials).Nodup
    ∧ (revokeSequence serials).Sublist serials
    ∧ (∀ l₁ s l₂, serials = l₁ ++ s :: l₂ → (∀ t ∈ l₁, int64View t ≠ int64View s) →
        s ∈ revokeSequence serials)
    ∧ (∀ crl s, (applyRevoke crl s).Pairwise (fun a b => int64View a ≠ int64View b))
    ∧ (∀ st crlRes s pairs, getByCN st "ca" = .ok pairs →
        revokeOne st crlRes true true true s = .ok (applyRevoke (crlList crlRes) s)) := by
  rw [revokeSequence_eq_removeDups]
  refine ⟨removeDupsAux_pairwise serials [], ?_, removeDupsAux_sublist serials [], ?_, ?_, ?_⟩
  · exact (removeDupsAux_pairwise serials []).imp
      (fun hne => fun heq => hne (congrArg int64View heq))
  · intro l₁ s l₂ heq hall
    subst heq
    exact mem_removeDupsAux_first l₁ s l₂ [] (by simp) hall
  · intro crl s
    exact removeDupsAux_pairwise (crl ++ [s]) []
  · intro st crlRes s pairs h
    exact revokeOne_ok st crlRes s pairs h

/-- Witness for C1 at concrete inputs: revoking `0`, `2 ^ 64`, `5`
leaves the deduplicated list `[0, 5]`, the serial `5` is present since
its 64-bit view is fresh, and `RevokeOne` on a storage with a CA stores
the appended deduplicated list. -/
theorem crl_dedup_amended_witness :
    revokeSequence [0, 18446744073709551616, 5] = [0, 5]
    ∧ (5 : Int) ∈ revokeSequence [0, 18446744073709551616, 5]
    ∧ revokeOne exampleCaState (.ok []) true true true 7 = .ok (applyRevoke [] 7) := by
  refine ⟨by decide, ?_, ?_⟩
  · exact (crl_dedup_amended [0, 18446744073709551616, 5]).2.2.2.1
      [0, 18446744073709551616] 5 [] (by decide) (by decide)
  · exact (crl_dedup_amended [0, 18446744073709551616, 5]).2.2.2.2.2
      exampleCaState (.ok []) 7 [⟨[1], [2], "ca", 1⟩] (by decide)

/-- Counterexample to C1 as stated: the serials `0` and `2 ^ 64` are
distinct big integers, yet after revoking both the CRL contains only
`0` — the entry for `2 ^ 64` is dropped because its `Int64()` view
collides with `0`. -/
theorem crl_dedup_counterexample :
    (0 : Int) ≠ 18446744073709551616
    ∧ revokeSequence [0, 18446744073709551616] = [0]
    ∧ (18446744073709551616 : Int) ∉ revokeSequence [0, 18446744073709551616] := by
  decide

/-- Claim C3 (amended).  After `revoke_one(s)` succeeds on a CRL whose
entries with the same `Int64()` view as `s` (if any) are equal to `s`,
`is_revoked(s)` is true; and any serial never revoked (distinct from `s`
and absent from the prior list) is reported not revoked. -/
theorem revocation_reflection_amended (crl : List Int) (s : Int)
    (h : ∀ t ∈ crl, int64View t = int64View s → t = s) :
    isRevoked (applyRevoke crl s) s = true
    ∧ (∀ t, t ∉ crl → t ≠ s → isRevoked (applyRevoke crl s) t = false) := by
  constructor
  · rw [isRevoked_eq_true_iff]
    exact mem_removeDupsAux_self crl [] s (by simp) h
  · intro t ht hts
    rw [isRevoked_eq_false_iff]
    intro hmem
    have hsub : (applyRevoke crl s).Sublist (crl ++ [s]) := removeDupsAux_sublist _ []
    have := hsub.subset hmem
    rw [List.mem_append, List.mem_singleton] at this
    rcases this with h1 | h1
    · exact ht h1
    · exact hts h1

/-- Witness for C3 at concrete inputs: after revoking `7` on the CRL
`[3]`, serial `7` is revoked and serial `42` is not. -/
theorem revocation_reflection_amended_witness :
    isRevoked (applyRevoke [3] 7) 7 = true ∧ isRevoked (applyRevoke [3] 7) 42 = false :=
  ⟨(revocation_reflection_amended [3] 7 (by decide)).1,
    (revocation_reflection_amended [3] 7 (by decide)).2 42 (by decide) (by decide)⟩

/-- Counterexample to C3 as stated: with the CRL `[0]`, `RevokeOne` of
`2 ^ 64` returns success but stores `[0]` again (the new entry is
dropped by the 64-bit-keyed dedup), so `IsRevoked` then reports `2 ^ 64`
as not revoked. -/
theorem revocation_reflection_counterexample :
    revokeOne exampleCaState (.ok [0]) true true true 18446744073709551616 = .ok [0]
    ∧ pkiIsRevoked (.ok [0]) 18446744073709551616 = false := by
  decide

/-- Claim C5 (amended).  When `GetCRL` fails (including a parse failure
on an existing CRL artifact), `RevokeOne` does not fail: it behaves
exactly as if the CRL were empty, and — when the remaining steps
succeed — overwrites the stored CRL with the single new entry. -/
theorem revoke_parse_failure_amended (st : DirKeyStorageState) (e : String)
    (d c pk : Bool) (s : Int) :
    revokeOne st (.error e) d c pk s = revokeOne st (.ok []) d c pk s
    ∧ (∀ pairs, getByCN st "ca" = .ok pairs →
        revokeOne st (.error e) true true true s = .ok [s]) := by
  constructor
  · rfl
  · intro pairs h
    rw [revokeOne_ok st (.error e) s pairs h]
    have : applyRevoke (crlList (.error e)) s = [s] := by
      simp [applyRevoke, crlList, removeDups, removeDupsAux]
    rw [this]

/-- Witness for C5: on a storage with a CA, a failing `GetCRL` still
lets `RevokeOne` succeed and store `[7]`. -/
theorem revoke_parse_failure_amended_witness :
    revokeOne exampleCaState (.error "x") true true true 7 = .ok [7] :=
  (revoke_parse_failure_amended exampleCaState "x" true true true 7).2
    [⟨[1], [2], "ca", 1⟩] (by decide)

/-- Counterexample to C5 as stated: with a CRL parse error, `RevokeOne`
returns success (not an error) and overwrites the stored CRL artifact
(previously `[9]`) with `[7]`. -/
theorem revoke_parse_failure_counterexample :
    revokeOne exampleCaState (.error "can`t parse crl") true true true 7 = .ok [7]
    ∧ crlAfterRevoke (some [9])
        (revokeOne exampleCaState (.error "can`t parse crl") true true true 7) = some [7] := by
  decide

/-- Claim C9.  `IsRevoked` never propagates an error: when `GetCRL`
fails for any reason, the revoked set is treated as empty and the answer
is `false`. -/
theorem is_revoked_error_fails_open (e : String) (s : Int) :
    pkiIsRevoked (.error e) s = false := rfl

/-- Claim C10.  When the storage holds no pair with CN `"ca"`,
`RevokeOne` fails with the `GetByCN` error and the stored CRL artifact
is unchanged: `CRLHolder.Put` is never invoked on this path. -/
theorem revoke_no_ca_error (st : DirKeyStorageState) (crlRes : Except String (List Int))
    (d c pk : Bool) (s : Int) (stored : Option (List Int))
    (h : ∀ f ∈ st.files, f.cn ≠ "ca") :
    revokeOne st crlRes d c pk s = .error (.getCa ("ca" ++ " not found"))
    ∧ crlAfterRevoke stored (revokeOne st crlRes d c pk s) = stored := by
  have hget := getByCN_no_ca st "ca" h
  constructor
  · simp [revokeOne, hget]
  · simp [crlAfterRevoke, revokeOne, hget]

/-- Witness for C10: a storage holding only a `"server"` pair makes
`RevokeOne` fail and leaves the stored CRL `[1]` unchanged. -/
theorem revoke_no_ca_error_witness :
    revokeOne ⟨["server"], [⟨"server", ['2'], true, [6]⟩, ⟨"server", ['2'], false, [5]⟩]⟩
        (.ok [1]) true true true 3 = .error (.getCa ("ca" ++ " not found"))
    ∧ crlAfterRevoke (some [1])
        (revokeOne ⟨["server"], [⟨"server", ['2'], true, [6]⟩, ⟨"server", ['2'], false, [5]⟩]⟩
          (.ok [1]) true true true 3) = some [1] :=
  revoke_no_ca_error _ (.ok [1]) true true true 3 (some [1]) (by decide)

/-- Claim C4.  The file-backed serial provider: a missing or empty
counter file reads as zero so the first allocation returns 1; `Next` on
content storing `v` returns `v + 1` and writes `v + 1` back in lowercase
hex; and any sequence of `Next` calls against a single counter file
returns strictly increasing values. -/
theorem serial_next_monotonic (content : List Char) (v : Int) :
    nextSerial [] = (1, intText16 1)
    ∧ (parseBigHex content = some v → nextSerial content = (v + 1, intText16 (v + 1)))
    ∧ (∀ k, (runNext (intText16 v) k).Chain' (· < ·))
    ∧ (∀ k, (runNext [] k).Chain' (· < ·))
    ∧ runNext [] 1 = [1] := by
  refine ⟨by norm_num [nextSerial], ?_, ?_, ?_, by decide⟩
  · intro h
    have hc : content ≠ [] := by
      intro hnil
      rw [hnil] at h
      simp [parseBigHex] at h
    simp [nextSerial, hc, h]
  · intro k
    rw [runNext_intText16 k v]
    exact chain_lt_map_range v k
  · intro k
    rw [runNext_nil_eq k, runNext_intText16 k 0]
    exact chain_lt_map_range 0 k

/-- Witness for C4: the counter file holding `"f"` stores 15, so `Next`
returns 16 and writes `"10"`; a run of three calls from an empty file is
strictly increasing. -/
theorem serial_next_monotonic_witness :
    nextSerial ['f'] = (15 + 1, intText16 (15 + 1))
    ∧ (runNext [] 3).Chain' (· < ·) :=
  ⟨(serial_next_monotonic ['f'] 15).2.1 (by decide),
    (serial_next_monotonic [] 0).2.2.2.1 3⟩

/-- Claim C6 (code bug).  `DeleteByCn` uses `os.Remove`, which is not
recursive: on a directory holding a certificate and key it fails with
"directory not empty" and removes nothing; it only succeeds on an empty
directory, and it also errors on a missing directory (which the
repository's own test expects to succeed). -/
theorem delete_by_cn_code_bug :
    deleteByCn exampleCaState "ca" = .error "can`t delete by cn: directory not empty"
    ∧ deleteByCn ⟨["ca"], []⟩ "ca" = .ok ⟨[], []⟩
    ∧ deleteByCn ⟨[], []⟩ "not_exist" =
        .error "can`t delete by cn: no such file or directory" := by
  decide

/-- Claim C7 (amended).  `get_last_ca` returns a pair with the maximum
serial among the CA pairs that `GetByCN "ca"` can see (those whose hex
filename parses as a signed 64-bit serial), and fails with not-found
when `GetByCN "ca"` fails. -/
theorem get_last_ca_amended (st : DirKeyStorageState) :
    (∀ pairs, getByCN st "ca" = .ok pairs →
      ∃ q, getLastByCn st "ca" = .ok q ∧ q ∈ pairs ∧ ∀ r ∈ pairs, r.Serial ≤ q.Serial)
    ∧ (∀ e, getByCN st "ca" = .error e →
        getLastByCn st "ca" = .error ("can`t get cert: " ++ e)) := by
  constructor
  · intro pairs h
    obtain ⟨-, hne⟩ := getByCN_ok_ne_nil st "ca" pairs h
    obtain ⟨q, rest, hsort⟩ := sortBySerialDesc_exists_cons pairs hne
    obtain ⟨hqmem, hqmax⟩ := sortBySerialDesc_head_max pairs q rest hsort
    exact ⟨q, by simp [getLastByCn, h, hsort], hqmem, hqmax⟩
  · intro e h
    simp [getLastByCn, h]

/-- Witness for C7: on a storage with a single CA pair of serial 1,
`getLastByCn` returns it and it is maximal. -/
theorem get_last_ca_amended_witness :
    ∃ q, getLastByCn exampleCaState "ca" = .ok q
      ∧ q ∈ [(⟨[1], [2], "ca", 1⟩ : X509Pair)]
      ∧ ∀ r ∈ [(⟨[1], [2], "ca", 1⟩ : X509Pair)], r.Serial ≤ q.Serial :=
  (get_last_ca_amended exampleCaState).1 [⟨[1], [2], "ca", 1⟩] (by decide)

/-- Counterexample to C7 as stated: two CA pairs are stored through
`put`, with serials 1 and `2 ^ 63`, yet `getLastByCn` returns the pair
with serial 1 — the `2 ^ 63` pair is invisible to `GetByCN` because its
filename does not parse as a signed 64-bit integer, so the returned
serial is not the maximum among stored CA pairs. -/
theorem get_last_ca_counterexample :
    put ⟨[], []⟩ ⟨[1], [2], "ca", 1⟩ = .ok exampleCaState
    ∧ put exampleCaState caPairBig = .ok bigCaState
    ∧ getLastByCn bigCaState "ca" = .ok ⟨[1], [2], "ca", 1⟩
    ∧ caPairBig.Serial = 9223372036854775808
    ∧ (1 : Int) < caPairBig.Serial := by
  decide

/-- Claim C8.  Every end-entity template carries exactly one
ExtraExtension, with OID 2.16.840.1.113730.1.1 and a bit string of
length 2 whose byte is 0x80 for the client role and 0x40 for the server
role; the client role sets KeyUsage DigitalSignature|KeyAgreement with
ExtKeyUsage [ClientAuth], the server role KeyUsage
DigitalSignature|KeyAgreement|KeyEncipherment with ExtKeyUsage
[ServerAuth]; the same holds for the `Client()`/`Server()` options
applied to the fresh `createCert` template. -/
theorem new_cert_extensions (cn : String) (serial : Int) :
    (∀ server, (newCertTemplate cn serial server).ExtraExtensions =
      [⟨nsCertTypeOid, ⟨[if server then 0x40 else 0x80], 2⟩⟩])
    ∧ nsCertTypeOid = [2, 16, 840, 1, 113730, 1, 1]
    ∧ (newCertTemplate cn serial false).KeyUsage =
        (KeyUsageDigitalSignature ||| KeyUsageKeyAgreement)
    ∧ (newCertTemplate cn serial false).ExtKeyUsage = [ExtKeyUsageClientAuth]
    ∧ (newCertTemplate cn serial true).KeyUsage =
        (KeyUsageDigitalSignature ||| KeyUsageKeyAgreement ||| KeyUsageKeyEncipherment)
    ∧ (newCertTemplate cn serial true).ExtKeyUsage = [ExtKeyUsageServerAuth]
    ∧ (applyClientOption (baseCertTemplate cn serial)).ExtraExtensions =
        [⟨nsCertTypeOid, ⟨[0x80], 2⟩⟩]
    ∧ (applyServerOption (baseCertTemplate cn serial)).ExtraExtensions =
        [⟨nsCertTypeOid, ⟨[0x40], 2⟩⟩] := by
  refine ⟨fun server => ?_, rfl, rfl, rfl, rfl, rfl, rfl, rfl⟩
  cases server <;> rfl

theorem foldl_getBySerialStep_eval (fs : List FsFile) (serial : Int)
    (pre post : List FsFile) (cf : FsFile) (res : X509Pair)
    (hpre : ∀ f ∈ pre, ∀ acc, getBySerialStep fs serial acc f = acc)
    (hpost : ∀ f ∈ post, ∀ acc, getBySerialStep fs serial acc f = acc)
    (hcf : ∀ acc, getBySerialStep fs serial acc cf = some res) :
    (pre ++ cf :: post).foldl (getBySerialStep fs serial) none = some res := by
  rw [List.foldl_append, foldl_getBySerialStep_skip fs serial pre hpre none,
    List.foldl_cons, hcf none]
  exact foldl_getBySerialStep_skip fs serial post hpost (some res)

/-- Claim C2 (amended).  For a pair with non-empty CN and positive serial
that fits in a signed 64-bit integer (`serial < 2 ^ 63`), stored into a
directory whose existing certificate files do not already use that
serial's hex text: after `Put` succeeds, `GetByCN` returns a list
containing the pair and `GetBySerial` returns the pair.  (For serials of
63 bits or more the claim fails: the filename no longer parses, see the
counterexample.) -/
theorem put_lookup_agreement_amended (st : DirKeyStorageState) (p : X509Pair)
    (hcn : p.CN ≠ "") (h1 : 0 < p.Serial) (h2 : p.Serial < 2 ^ 63)
    (hu : ∀ f ∈ st.files, f.isCert = true → ∀ ser, parseInt64 f.base = some ser →
      intText16 ser ≠ intText16 p.Serial) :
    ∃ st', put st p = .ok st'
      ∧ (∃ pairs, getByCN st' p.CN = .ok pairs ∧ p ∈ pairs)
      ∧ getBySerial st' p.Serial = .ok p := by
  obtain ⟨pKey, pCert, pCN, pSer⟩ := p
  simp only at hcn h1 h2 hu
  have hparse : parseInt64 (intText16 pSer) = some pSer := parseInt64_intText16 pSer h1 h2
  refine ⟨⟨if pCN ∈ st.dirs then st.dirs else st.dirs ++ [pCN],
    writeFile (writeFile st.files ⟨pCN, intText16 pSer, true, pCert⟩)
      ⟨pCN, intText16 pSer, false, pKey⟩⟩, by simp [put, hcn], ?_, ?_⟩
  all_goals
    have hsib : readKeySibling
        (writeFile (writeFile st.files ⟨pCN, intText16 pSer, true, pCert⟩)
          ⟨pCN, intText16 pSer, false, pKey⟩) pCN (intText16 pSer) = some pKey :=
      readKeySibling_writeFile _ pCN (intText16 pSer) pKey
  · -- getByCN contains the pair
    have hcmem : (⟨pCN, intText16 pSer, true, pCert⟩ : FsFile) ∈
        writeFile (writeFile st.files ⟨pCN, intText16 pSer, true, pCert⟩)
          ⟨pCN, intText16 pSer, false, pKey⟩ :=
      mem_writeFile_of_mem _ _ _
        (mem_writeFile_self st.files ⟨pCN, intText16 pSer, true, pCert⟩)
        (by simp [sameEntry])
    have hpair : pairOfCert
        (writeFile (writeFile st.files ⟨pCN, intText16 pSer, true, pCert⟩)
          ⟨pCN, intText16 pSer, false, pKey⟩) pCN ⟨pCN, intText16 pSer, true, pCert⟩ =
        some ⟨pKey, pCert, pCN, pSer⟩ := by
      simp [pairOfCert, hparse, hsib]
    have hmem : (⟨pKey, pCert, pCN, pSer⟩ : X509Pair) ∈
        (writeFile (writeFile st.files ⟨pCN, intText16 pSer, true, pCert⟩)
          ⟨pCN, intText16 pSer, false, pKey⟩).filterMap
          (pairOfCert
            (writeFile (writeFile st.files ⟨pCN, intText16 pSer, true, pCert⟩)
              ⟨pCN, intText16 pSer, false, pKey⟩) pCN) :=
      List.mem_filterMap.mpr ⟨_, hcmem, hpair⟩
    refine ⟨_, ?_, hmem⟩
    simp only [getByCN]
    rw [if_neg (List.ne_nil_of_mem hmem)]
  · -- getBySerial returns the pair
    have hcertstep : ∀ fs acc, readKeySibling fs pCN (intText16 pSer) = some pKey →
        getBySerialStep fs pSer acc ⟨pCN, intText16 pSer, true, pCert⟩ =
          some ⟨pKey, pCert, pCN, pSer⟩ := by
      intro fs acc hsibfs
      simp [getBySerialStep, hparse, hsibfs]
    have hskipOrig : ∀ fs, ∀ g ∈ st.files, ∀ acc, getBySerialStep fs pSer acc g = acc := by
      intro fs g hg acc
      apply getBySerialStep_skip
      by_cases hgc : g.isCert = true
      · right
        intro ser hser heq
        exact hu g hg hgc ser hser heq.symm
      · left
        simpa using hgc
    have hskipKey : ∀ fs acc,
        getBySerialStep fs pSer acc ⟨pCN, intText16 pSer, false, pKey⟩ = acc :=
      fun fs => getBySerialStep_skip fs pSer _ (Or.inl rfl)
    have hanyc : st.files.any
        (fun g => sameEntry g ⟨pCN, intText16 pSer, true, pCert⟩) = false := by
      rw [List.any_eq_false]
      intro g hg
      by_contra hgt
      have hgt : sameEntry g ⟨pCN, intText16 pSer, true, pCert⟩ = true := by simpa using hgt
      simp only [sameEntry, Bool.and_eq_true, beq_iff_eq] at hgt
      exact hu g hg hgt.2 pSer (by rw [hgt.1.2]; exact hparse) rfl
    have hfs1 : writeFile st.files ⟨pCN, intText16 pSer, true, pCert⟩ =
        st.files ++ [⟨pCN, intText16 pSer, true, pCert⟩] := by
      unfold writeFile
      rw [if_neg (by simp [hanyc])]
    simp only [getBySerial]
    by_cases hany2 : ((st.files ++ [(⟨pCN, intText16 pSer, true, pCert⟩ : FsFile)]).any
        (fun g => sameEntry g ⟨pCN, intText16 pSer, false, pKey⟩)) = true
    · -- an old key file is overwritten in place
      have heq : writeFile (writeFile st.files ⟨pCN, intText16 pSer, true, pCert⟩)
          ⟨pCN, intText16 pSer, false, pKey⟩ =
          (st.files.map (fun g => if sameEntry g ⟨pCN, intText16 pSer, false, pKey⟩
            then ⟨pCN, intText16 pSer, false, pKey⟩ else g)) ++
            [⟨pCN, intText16 pSer, true, pCert⟩] := by
        rw [hfs1]
        unfold writeFile
        rw [if_pos hany2, List.map_append]
        simp [sameEntry]
      rw [heq] at hsib ⊢
      have hpremap : ∀ f ∈ st.files.map (fun g =>
          if sameEntry g ⟨pCN, intText16 pSer, false, pKey⟩
            then (⟨pCN, intText16 pSer, false, pKey⟩ : FsFile) else g),
          ∀ acc, getBySerialStep
            ((st.files.map (fun g => if sameEntry g ⟨pCN, intText16 pSer, false, pKey⟩
              then ⟨pCN, intText16 pSer, false, pKey⟩ else g)) ++
              [⟨pCN, intText16 pSer, true, pCert⟩]) pSer acc f = acc := by
        intro f hf acc
        obtain ⟨g, hg, hgf⟩ := List.mem_map.mp hf
        by_cases hs : sameEntry g ⟨pCN, intText16 pSer, false, pKey⟩ = true
        · rw [if_pos hs] at hgf
          rw [← hgf]
          exact hskipKey _ acc
        · rw [if_neg hs] at hgf
          rw [← hgf]
          exact hskipOrig _ g hg acc
      have := foldl_getBySerialStep_eval _ pSer _ [] _ ⟨pKey, pCert, pCN, pSer⟩ hpremap
        (by intro f hf acc; simp at hf) (fun acc => hcertstep _ acc hsib)
      simp only [List.append_nil] at this
      rw [this]
    · -- both files are appended
      have heq : writeFile (writeFile st.files ⟨pCN, intText16 pSer, true, pCert⟩)
          ⟨pCN, intText16 pSer, false, pKey⟩ =
          st.files ++ [⟨pCN, intText16 pSer, true, pCert⟩] ++
            [⟨pCN, intText16 pSer, false, pKey⟩] := by
        rw [hfs1]
        unfold writeFile
        rw [if_neg hany2]
      rw [heq] at hsib ⊢
      have harr : st.files ++ [(⟨pCN, intText16 pSer, true, pCert⟩ : FsFile)] ++
          [(⟨pCN, intText16 pSer, false, pKey⟩ : FsFile)] =
          st.files ++ (⟨pCN, intText16 pSer, true, pCert⟩ : FsFile) ::
            [⟨pCN, intText16 pSer, false, pKey⟩] := by
        simp
      rw [harr] at hsib ⊢
      have := foldl_getBySerialStep_eval _ pSer st.files
        [⟨pCN, intText16 pSer, false, pKey⟩] _ ⟨pKey, pCert, pCN, pSer⟩
        (fun g hg acc => hskipOrig _ g hg acc)
        (by
          intro f hf acc
          simp only [List.mem_singleton] at hf
          rw [hf]
          exact hskipKey _ acc)
        (fun acc => hcertstep _ acc hsib)
      rw [this]

/-- Witness for C2: putting the pair `("alice", serial 1)` into an empty
directory makes it retrievable by CN and by serial. -/
theorem put_lookup_agreement_amended_witness :
    ∃ st', put ⟨[], []⟩ ⟨[5], [6], "alice", 1⟩ = .ok st'
      ∧ (∃ pairs, getByCN st' "alice" = .ok pairs ∧ (⟨[5], [6], "alice", 1⟩ : X509Pair) ∈ pairs)
      ∧ getBySerial st' 1 = .ok ⟨[5], [6], "alice", 1⟩ :=
  put_lookup_agreement_amended ⟨[], []⟩ ⟨[5], [6], "alice", 1⟩
    (by decide) (by decide) (by decide) (by decide)

/-- Counterexample to C2 as stated: the pair with serial `2 ^ 63` (which
does not fit in 63 bits) is stored by `put`, yet `GetByCN` reports
not-found and `GetBySerial` reports not-found — the filename
`8000000000000000` does not parse as a signed 64-bit integer, so the
stored pair is unreachable. -/
theorem put_lookup_agreement_counterexample :
    bigPair.CN ≠ "" ∧ 0 < bigPair.Serial
    ∧ put ⟨[], []⟩ bigPair = .ok bigPairState
    ∧ getByCN bigPairState "big" = .error "big not found"
    ∧ getBySerial bigPairState bigPair.Serial = .error "not found" := by
  decide
